import Mathlib

/-!
# Verification of the ani-vscode companion dispatcher core

Shallow embedding of the message queue, plugin registry (weighted random
selection), and the `AgentLoop` dispatch cycle of the ani-vscode
repository, together with proofs settling the frozen claims about it.

Strings are modelled as `List Char`; JavaScript numbers that only ever
hold integral millisecond timestamps are modelled as `Int`/`Nat`, and the
floating-point plugin weights as `ℚ`.
-/

namespace AniSpec

/-! ## Basic string utilities (JS `trim`, case-insensitive search)

`String.prototype.trim` removes leading/trailing whitespace; the texts
involved only ever contain ASCII whitespace, modelled by `isJsWs`. -/

/-- ASCII whitespace characters recognised by JS `\s` / `trim` on the
inputs of interest: space, tab, newline, carriage return, vertical tab,
form feed. -/
def isJsWs (c : Char) : Bool :=
  c = ' ' || c = '\t' || c = '\n' || c = '\r' ||
  c = Char.ofNat 11 || c = Char.ofNat 12

/-- Remove leading whitespace. -/
def trimLeft (s : List Char) : List Char := s.dropWhile isJsWs

/-- Remove trailing whitespace. -/
def trimRight (s : List Char) : List Char :=
  ((s.reverse).dropWhile isJsWs).reverse

/-- JS `String.prototype.trim`. -/
def trimChars (s : List Char) : List Char := trimRight (trimLeft s)

/-- Case-insensitive prefix test: the (lowercase) pattern `pat` matches
the start of `s` up to ASCII case. -/
def isPrefixOfCi (pat s : List Char) : Bool :=
  pat == (s.take pat.length).map Char.toLower

/-- Find the first (leftmost) case-insensitive occurrence of `pat` in
`s`; returns the part before the occurrence and the part after it
(`s = before ++ occurrence ++ after`). -/
def findSubCi (pat : List Char) : List Char → Option (List Char × List Char)
  | [] => if pat.isEmpty then some ([], []) else none
  | c :: cs =>
    if isPrefixOfCi pat (c :: cs) then
      some ([], (c :: cs).drop pat.length)
    else
      match findSubCi pat cs with
      | some (a, b) => some (c :: a, b)
      | none => none

/-! ## MessageQueue

The current `MessageQueue` implementation with two tiers is not present
under `src/` (only an older single-tier revision and its caller
`AgentLoop.enqueueUserMessage` are). -/

/-- Modelled from the spec: the two-tier `MessageQueue` whose current
implementation is missing from `src/` (only an older single-tier
revision of `src/src/MessageQueue.ts` and the caller
`AgentLoop.enqueueUserMessage` are present).  Per spec §4.1 the queue
holds a priority tier and a normal tier, each FIFO, and the priority
tier is always dequeued first. -/
structure MessageQueue where
  priorityTier : List (List Char)
  normalTier : List (List Char)
deriving Repr, DecidableEq

namespace MessageQueue

/-- The empty queue. -/
def empty : MessageQueue := ⟨[], []⟩

/-- Modelled from the spec: `enqueue(text)` appends to the tail of the
normal tier. -/
def enqueue (m : List Char) (q : MessageQueue) : MessageQueue :=
  { q with normalTier := q.normalTier ++ [m] }

/-- Modelled from the spec: `enqueueFront(text)` inserts ahead of all
normal-tier entries but behind other priority entries already queued. -/
def enqueueFront (m : List Char) (q : MessageQueue) : MessageQueue :=
  { q with priorityTier := q.priorityTier ++ [m] }

/-- Modelled from the spec: `dequeue()` removes and returns the head
(priority tier first), or a not-found signal if empty. -/
def dequeue (q : MessageQueue) : Option (List Char) × MessageQueue :=
  match q.priorityTier with
  | p :: ps => (some p, ⟨ps, q.normalTier⟩)
  | [] =>
    match q.normalTier with
    | n :: ns => (some n, ⟨[], ns⟩)
    | [] => (none, q)

/-- Modelled from the spec: `peek()` is non-destructive. -/
def peek (q : MessageQueue) : Option (List Char) :=
  match q.priorityTier with
  | p :: _ => some p
  | [] => q.normalTier.head?

/-- Modelled from the spec: `clear()` empties both tiers. -/
def clear (_ : MessageQueue) : MessageQueue := ⟨[], []⟩

/-- Modelled from the spec: `isEmpty()`. -/
def isEmpty (q : MessageQueue) : Bool :=
  q.priorityTier.isEmpty && q.normalTier.isEmpty

/-- The order in which repeated `dequeue` drains the queue: the whole
priority tier first, then the normal tier. -/
def drainOrder (q : MessageQueue) : List (List Char) :=
  q.priorityTier ++ q.normalTier

end MessageQueue

/-! ## Assistant-text stripping (`AgentLoop.stripCodeBlockTags`,
`stripThinkTags`, `stripTrailingLlmArtifacts`) -/

/-- Split on newline characters, JS `text.split('\n')`.  Always returns
at least one (possibly empty) piece. -/
def splitNl : List Char → List (List Char)
  | [] => [[]]
  | c :: cs =>
    if c = '\n' then [] :: splitNl cs
    else
      match splitNl cs with
      | [] => [[c]]
      | l :: ls => (c :: l) :: ls

/-- Join pieces with newline characters, JS `lines.join('\n')`. -/
def joinNl : List (List Char) → List Char
  | [] => []
  | [l] => l
  | l :: ls => l ++ '\n' :: joinNl ls

/-- JS `\w` word characters. -/
def isWordChar (c : Char) : Bool :=
  ('a' ≤ c && c ≤ 'z') || ('A' ≤ c && c ≤ 'Z') || ('0' ≤ c && c ≤ '9') || c = '_'

/-- The test `/^```\w*\n/.test(trimmed)`: three backticks, any run of
word characters, then a newline. -/
def startsWithCodeFence (s : List Char) : Bool :=
  match s with
  | '`' :: '`' :: '`' :: rest => (rest.dropWhile isWordChar).head? = some '\n'
  | _ => false

/-- The test `/\n```$/.test(trimmed)`. -/
def endsWithCodeFence (s : List Char) : Bool :=
  ['\n', '`', '`', '`'].isSuffixOf s

/-- Whether the whole (trimmed) text is wrapped in a markdown code
fence, the guard of `AgentLoop.stripCodeBlockTags`. -/
def fenceWrapped (s : List Char) : Bool :=
  startsWithCodeFence s && endsWithCodeFence s

/-- `AgentLoop.stripCodeBlockTags`: if the entire trimmed text is
wrapped in a code fence, drop the first and last lines
(`lines.slice(1, -1).join('\n')`); otherwise return the text
unchanged. -/
def stripCodeBlockTags (s : List Char) : List Char :=
  let trimmed := trimChars s
  if fenceWrapped trimmed then
    joinNl (((splitNl trimmed).drop 1).dropLast)
  else s

/-- The literal `<think>` (the regex is case-insensitive). -/
def thinkOpenTok : List Char := ['<', 't', 'h', 'i', 'n', 'k', '>']

/-- The literal `</think>`. -/
def thinkCloseTok : List Char := ['<', '/', 't', 'h', 'i', 'n', 'k', '>']

/-- One-step-at-a-time model of
`text.replace(/<think>[\s\S]*?<\/think>/gi, '')`: find the leftmost
`<think>`; if some `</think>` follows it, delete through the nearest
one and continue scanning after the deletion point.  `fuel ≥ s.length`
suffices, since each step strictly shrinks the text scanned. -/
def stripThinkAux (fuel : Nat) (s : List Char) : List Char :=
  match fuel with
  | 0 => s
  | fuel + 1 =>
    match findSubCi thinkOpenTok s with
    | none => s
    | some (a, b) =>
      match findSubCi thinkCloseTok b with
      | none => s
      | some (_, d) => a ++ stripThinkAux fuel d

/-- `AgentLoop.stripThinkTags`: remove all `<think>...</think>` blocks,
then trim. -/
def stripThinkTags (s : List Char) : List Char :=
  trimChars (stripThinkAux s.length s)

/-- The literal `</start_of_turn>`. -/
def startTurnTok : List Char := "</start_of_turn>".toList

/-- The literal `</end_of_turn>`. -/
def endTurnTok : List Char := "</end_of_turn>".toList

/-- Case-insensitive suffix test. -/
def isSuffixOfCi (pat s : List Char) : Bool :=
  isPrefixOfCi pat.reverse s.reverse

/-- Whether `s` ends (case-insensitively) with one of the two
end-of-turn artifacts. -/
def endsWithTurnTok (s : List Char) : Bool :=
  isSuffixOfCi startTurnTok s || isSuffixOfCi endTurnTok s

/-- Remove the maximal run of adjacent end-of-turn artifacts from the
end of `s`, returning the rest and whether anything was removed.
`fuel ≥ s.length` suffices. -/
def dropTrailingTurnToks (fuel : Nat) (s : List Char) : List Char × Bool :=
  match fuel with
  | 0 => (s, false)
  | fuel + 1 =>
    if isSuffixOfCi startTurnTok s then
      ((dropTrailingTurnToks fuel (s.take (s.length - startTurnTok.length))).1, true)
    else if isSuffixOfCi endTurnTok s then
      ((dropTrailingTurnToks fuel (s.take (s.length - endTurnTok.length))).1, true)
    else (s, false)

/-- `AgentLoop.stripTrailingLlmArtifacts`:
`text.replace(/\s*(?:<\/start_of_turn>|<\/end_of_turn>)+\s*$/i, '').trim()` —
the (single, leftmost) match removes the final run of adjacent
end-of-turn tokens together with surrounding trailing whitespace; if no
token ends the text, only the final `.trim()` applies. -/
def stripTrailingLlmArtifacts (s : List Char) : List Char :=
  let t := trimRight s
  let r := dropTrailingTurnToks t.length t
  if r.2 then trimChars r.1 else trimChars s

/-- The full decoration-stripping pipeline applied to the assistant
text in `AgentLoop.run` (lines 315–317), in source order. -/
def stripAssistantText (s : List Char) : List Char :=
  stripTrailingLlmArtifacts (stripThinkTags (stripCodeBlockTags s))

/-! ## Conversation history data model

`chatHistory` holds LangChain `SystemMessage | HumanMessage | AIMessage
| ToolMessage` values; the dispatcher only ever inspects the class
(role) of an entry, so a turn is a role plus its text content. -/

/-- The role of a turn, i.e. which message class it is an instance of. -/
inductive Role where
  | system
  | user
  | assistant
  | tool
deriving Repr, DecidableEq

/-- One conversation turn. -/
structure Msg where
  role : Role
  content : List Char
deriving Repr, DecidableEq

/-! ## Quick-reply tool (`QUICK_REPLY_TOOL`, `normalizeQuickReplies`) -/

/-- The advertised JSON schema of `QUICK_REPLY_TOOL` limits the
`replies` array to between `quickReplyToolMinItems` and
`quickReplyToolMaxItems` entries. -/
def quickReplyToolMinItems : Nat := 1

/-- `maxItems` of the `replies` array in `QUICK_REPLY_TOOL`. -/
def quickReplyToolMaxItems : Nat := 3

/-- The hard cap `normalizeQuickReplies` enforces on its output
(`if (replies.length >= 5) break`). -/
def normalizeQuickRepliesCap : Nat := 5

/-- Untyped JSON-ish values that can appear in parsed tool arguments. -/
inductive Jv where
  | str (s : List Char)
  | obj (fields : List (List Char × Jv))
  | arr (elems : List Jv)
  | other
deriving Repr

/-- The candidate keys probed on object items, in order. -/
def quickReplyCandidateKeys : List (List Char) :=
  ["text".toList, "label".toList, "value".toList, "reply".toList]

/-- First binding of `k` in an object's fields (JS property access). -/
def jvLookup (fields : List (List Char × Jv)) (k : List Char) : Option Jv :=
  (fields.find? (fun f => f.1 = k)).map (·.2)

/-- The candidate a single array item contributes in
`normalizeQuickReplies`: a string item is trimmed; an object item
yields the trimmed value of the first candidate key holding a string
with non-empty trim.  Returns `none` exactly when the item is skipped
(which includes a string item whose trim is empty, since the source
then fails the `candidate && candidate.length > 0` check). -/
def quickReplyCandidate (item : Jv) : Option (List Char) :=
  match item with
  | .str s => if trimChars s = [] then none else some (trimChars s)
  | .obj fields =>
    (quickReplyCandidateKeys.find? (fun k =>
        match jvLookup fields k with
        | some (.str v) => trimChars v ≠ []
        | _ => false)).bind (fun k =>
      match jvLookup fields k with
      | some (.str v) => some (trimChars v)
      | _ => none)
  | _ => none

/-- The loop of `AgentLoop.normalizeQuickReplies`: push unseen
non-empty candidates in order, stopping once five are collected. -/
def normalizeQuickRepliesGo : List Jv → List (List Char) → List (List Char) →
    List (List Char)
  | [], _, replies => replies
  | item :: rest, seen, replies =>
    match quickReplyCandidate item with
    | none => normalizeQuickRepliesGo rest seen replies
    | some c =>
      if c ∈ seen then normalizeQuickRepliesGo rest seen replies
      else
        let r := replies ++ [c]
        if normalizeQuickRepliesCap ≤ r.length then r
        else normalizeQuickRepliesGo rest (c :: seen) r

/-- `AgentLoop.normalizeQuickReplies`: non-array input yields `[]`;
array input is folded by the loop above. -/
def normalizeQuickReplies (input : Jv) : List (List Char) :=
  match input with
  | .arr items => normalizeQuickRepliesGo items [] []
  | _ => []

/-- Clean specification of first-occurrence deduplication, used to
state that `normalizeQuickReplies` preserves first-occurrence order. -/
def firstOccDedup : List (List Char) → List (List Char)
  | [] => []
  | c :: l => c :: firstOccDedup (l.filter (· ≠ c))
termination_by l => l.length
decreasing_by
  simpa using Nat.lt_succ_of_le (List.length_filter_le _ _)

/-! ## Plugin registry (`PluginManager`, from `src/unnamed/part_002`)

Plugin weights are JS numbers; they are modelled as `ℚ`.  The
configuration is modelled by the per-plugin weight override lookup it
provides, and the `Math.random() * totalWeight` draw by a parameter
`r`. -/

/-- The per-invocation view of a registered plugin: the results of its
`isEnabled`/`getWeight`/`shouldTrigger` hooks under the current
configuration and context.  `getWeightHook = none` models a plugin
without a `getWeight` method, `shouldTriggerHook = none` one without
`shouldTrigger`. -/
structure Plugin where
  pid : Nat
  enabledFor : Bool
  getWeightHook : Option ℚ
  shouldTriggerHook : Option Bool
deriving Repr, DecidableEq

/-- The user-configured weight overrides,
`config.get('plugins.<id>.weight')`. -/
structure PluginConfig where
  weightOverride : Nat → Option ℚ

/-- `PluginManager.getPluginWeight`: the configured override wins when
present and `≥ 0`; otherwise the plugin's own `getWeight`, defaulting
to `1.0`. -/
def getPluginWeight (cfg : PluginConfig) (p : Plugin) : ℚ :=
  match cfg.weightOverride p.pid with
  | some w => if 0 ≤ w then w else (p.getWeightHook.getD 1)
  | none => p.getWeightHook.getD 1

/-- The enabled-and-eligible subset `selectRandomPlugin` draws from
when a context is provided: `isEnabled` holds and `shouldTrigger`
(when implemented) returns true. -/
def eligiblePlugins (plugins : List Plugin) : List Plugin :=
  (plugins.filter (·.enabledFor)).filter
    (fun p => p.shouldTriggerHook.getD true)

/-- The subtraction loop of `selectRandomPlugin`: walk the weighted
candidates in registration order, subtracting each weight from the
drawn value; the first candidate whose subtraction drops it to or
below zero wins.  Returns `none` when the loop falls through. -/
def selectScan (r : ℚ) : List (Plugin × ℚ) → Option Plugin
  | [] => none
  | (p, w) :: rest => if r - w ≤ 0 then some p else selectScan (r - w) rest

/-- `PluginManager.selectRandomPlugin` (with a context supplied, as
`AgentLoop` always does): filter to enabled ∧ shouldTrigger, return
`none` on an empty candidate set or zero total weight, otherwise run
the weighted subtraction loop on the drawn value `r`, falling back to
the last candidate. -/
def selectRandomPlugin (cfg : PluginConfig) (r : ℚ) (plugins : List Plugin) :
    Option Plugin :=
  let enabled := eligiblePlugins plugins
  if enabled.isEmpty then none
  else
    let weights := enabled.map (getPluginWeight cfg)
    let totalWeight := weights.sum
    if totalWeight = 0 then none
    else
      match selectScan r (enabled.zip weights) with
      | some p => some p
      | none => enabled.getLast?

/-! ## Tool calls and the model invocation loop (`AgentLoop.run`
lines 285–308, `executeToolCall`, `handleQuickRepliesTool`) -/

/-- A tool call carried by a model response.  The `args` field holds
the already-parsed arguments (the `parseToolArgs` JSON handling is
summarised by `Jv.other` for malformed input). -/
structure ToolCall where
  name : List Char
  args : Jv

/-- One model response: the assistant text plus any pending tool
calls. -/
structure ModelResp where
  content : List Char
  toolCalls : List ToolCall

/-- The `replies` argument handed to `normalizeQuickReplies`
(`(args as { replies?: unknown }).replies`). -/
def repliesArg (args : Jv) : Jv :=
  match args with
  | .obj fields => (jvLookup fields "replies".toList).getD .other
  | _ => .other

/-- `AgentLoop.executeToolCall` for one call: returns the tool-result
turn and the new `pendingQuickReplies` state.  Only
`show_quick_replies` is implemented; any other name produces an error
tool message. -/
def executeToolCall (pend : List (List Char)) (call : ToolCall) :
    Msg × List (List Char) :=
  if call.name = "show_quick_replies".toList then
    let replies := normalizeQuickReplies (repliesArg call.args)
    if replies = [] then
      (⟨.tool, ("No quick replies were displayed because " ++
                "no valid replies were provided.").toList⟩, [])
    else
      (⟨.tool, ("Prepared " ++ Nat.repr replies.length ++ " quick reply option" ++
                (if replies.length = 1 then "" else "s") ++
                " for the user.").toList⟩, replies)
  else
    (⟨.tool, "Tool \"".toList ++ call.name ++ "\" is not implemented.".toList⟩, pend)

/-- Execute every tool call of one response in order (the `for` loop
in `AgentLoop.run` lines 297–301), threading `pendingQuickReplies`. -/
def execToolCalls (calls : List ToolCall) (pend : List (List Char)) :
    List Msg × List (List Char) :=
  match calls with
  | [] => ([], pend)
  | call :: rest =>
    let step := executeToolCall pend call
    let restStep := execToolCalls rest step.2
    (step.1 :: restStep.1, restStep.2)

/-- The model invocation loop, entered when tool calling (quick
replies) is enabled.  The model's successive responses are supplied by
the finite `script` (one entry per `invoke`); an exhausted script
models the next `invoke` throwing, and is reported as `none`.  On
normal exit it returns the accumulated new turns (each response's
assistant turn followed by its tool-result turns), the final response
(the first one carrying no tool calls), and the final
`pendingQuickReplies`. -/
def toolLoopGo (script : List ModelResp) (pend : List (List Char))
    (acc : List Msg) : Option (List Msg × ModelResp × List (List Char)) :=
  match script with
  | [] => none
  | resp :: rest =>
    let acc := acc ++ [⟨.assistant, resp.content⟩]
    if resp.toolCalls.isEmpty then some (acc, resp, pend)
    else
      let step := execToolCalls resp.toolCalls pend
      toolLoopGo rest step.2 (acc ++ step.1)

/-- The turns one round of the loop contributes for a response that
still carries tool calls, used to state what the loop appends. -/
def roundMsgs (pend : List (List Char)) (resp : ModelResp) : List Msg :=
  ⟨.assistant, resp.content⟩ :: (execToolCalls resp.toolCalls pend).1

/-! ## The dispatch cycle (`AgentLoop.run`) -/

/-- The outcome of plugin selection plus `generateMessage` when the
queue is empty: no plugin available, a null message, a thrown error,
or a generated message. -/
inductive GenOutcome where
  | noPlugin
  | genNull
  | genThrow
  | genMsg (userPrompt : List Char) (appendText : Option (List Char))

/-- The mutable `AgentLoop` state touched by `run`. -/
structure AgentState where
  llmInFlight : Bool
  lastLlmEndedAt : Option Nat
  chatHistory : List Msg
  lastFilePath : Option (List Char)
  /-- delay of the pending cooldown retry timer, if one is scheduled -/
  cooldownPending : Option Int
  queue : MessageQueue

/-- The per-invocation environment of `run`: configuration reads,
clock reads, the active editor, and oracles for the plugin and model
behaviour during this cycle. -/
structure Env where
  editorPath : Option (List Char)
  cfgMinIntervalSeconds : Nat
  cfgMaxHistory : Nat
  systemPrompt : List Char
  quickRepliesEnabled : Bool
  /-- `Date.now()` at the cooldown check -/
  now : Nat
  /-- `Date.now()` in the `finally` block -/
  endedAt : Nat
  genOutcome : GenOutcome
  llmScript : List ModelResp

/-- How one call to `run` ended. -/
inductive RunResult where
  | droppedInFlight
  | cooldownSkip
  | rescheduled (delayMs : Int)
  | aborted
  | dispatchError
  | dispatched (text : List Char)
deriving Repr, DecidableEq

/-- `minIntervalSec` as computed in `run`
(`Math.max(10, cfg.get('llm.minIntervalSeconds', 10))`). -/
def minIntervalSec (env : Env) : Nat := max 10 env.cfgMinIntervalSeconds

/-- `maxHistory` as computed in `run`
(`Math.max(1, cfg.get('llm.maxHistory', 5))`). -/
def maxHistoryOf (env : Env) : Nat := max 1 env.cfgMaxHistory

/-- Reset chat history when the active document changed (`run` lines
180–188): given the active editor's path, the remembered path and the
history, return the new history and remembered path. -/
def resetOnFileChange (editorPath lastFp : Option (List Char))
    (h : List Msg) : List Msg × Option (List Char) :=
  match editorPath with
  | some p => if lastFp ≠ some p then ([], some p) else (h, lastFp)
  | none => (h, lastFp)

/-- Ensure the system prompt heads the history (`run` lines 190–193). -/
def ensureSystemHead (prompt : List Char) (h : List Msg) : List Msg :=
  match h with
  | [] => [⟨.system, prompt⟩]
  | m :: rest =>
    if m.role = .system then m :: rest else ⟨.system, prompt⟩ :: m :: rest

/-- JS `arr.slice(-k)` for a non-negative `k` as it occurs in the
pruning step: for `k > 0` the last `min k len` elements, but
`slice(-0)` is `slice(0)`, the whole array. -/
def jsSliceLast (l : List Msg) (k : Nat) : List Msg :=
  if k = 0 then l else l.drop (l.length - k)

/-- The history pruning step (`run` lines 337–341). -/
def pruneHistory (maxHistory : Nat) (h : List Msg) : List Msg :=
  if maxHistory < h.length then
    let sys :=
      match h with
      | m :: _ => if m.role = .system then [m] else []
      | [] => []
    sys ++ jsSliceLast h (maxHistory - sys.length)
  else h

/-- Replace the last assistant turn of the new-messages list with the
stripped final text (`run` lines 323–328), scanning from the end. -/
def replaceFirstAssistantRev (text : List Char) : List Msg → List Msg
  | [] => []
  | m :: rest =>
    if m.role = .assistant then ⟨.assistant, text⟩ :: rest
    else m :: replaceFirstAssistantRev text rest

/-- See `replaceFirstAssistantRev`. -/
def replaceLastAssistant (text : List Char) (l : List Msg) : List Msg :=
  (replaceFirstAssistantRev text l.reverse).reverse

/-- The `finally` block of `run` (lines 441–448): release the
single-flight flag and record the completion timestamp, on every exit
from the `try` (successful, aborted, or failed alike). -/
def finallyApply (env : Env) (st : AgentState) (res : RunResult) :
    AgentState × RunResult :=
  ({ st with llmInFlight := false, lastLlmEndedAt := some env.endedAt }, res)

/-- Successful tail of the dispatch: strip the final assistant text,
fold it back into the new turns, append them to history and prune. -/
def finishDispatch (env : Env) (st : AgentState) (newMessages : List Msg)
    (finalResp : ModelResp) : AgentState × RunResult :=
  let text := stripAssistantText finalResp.content
  let newMessages := replaceLastAssistant text newMessages
  let history := pruneHistory (maxHistoryOf env) (st.chatHistory ++ newMessages)
  finallyApply env { st with chatHistory := history } (.dispatched text)

/-- The model invocation part of the dispatch (`run` lines 247–341):
single invocation when tool calling is disabled, the tool loop when
enabled; a throw from `invoke` (exhausted script) takes the catch
path, leaving history as it was after normalization. -/
def proceedLlm (env : Env) (st : AgentState) (userPrompt : List Char) :
    AgentState × RunResult :=
  let human : Msg := ⟨.user, userPrompt⟩
  if env.quickRepliesEnabled then
    match toolLoopGo env.llmScript [] [] with
    | none => finallyApply env st .dispatchError
    | some (loopMsgs, finalResp, _) =>
      finishDispatch env st (human :: loopMsgs) finalResp
  else
    match env.llmScript with
    | [] => finallyApply env st .dispatchError
    | resp :: _ =>
      finishDispatch env st [human, ⟨.assistant, resp.content⟩] resp

/-- The `try` body of `run` (lines 171–448) with the `finally` applied
to every exit: set the single-flight flag, reset history on file
change, ensure the system head, then consume the queue (an empty
dequeued string is falsy and aborts) or fall back to the plugin
oracle. -/
def dispatchPhase (env : Env) (st : AgentState) : AgentState × RunResult :=
  let st := { st with llmInFlight := true }
  let rs := resetOnFileChange env.editorPath st.lastFilePath st.chatHistory
  let st := { st with chatHistory := ensureSystemHead env.systemPrompt rs.1,
                      lastFilePath := rs.2 }
  if MessageQueue.isEmpty st.queue then
    match env.genOutcome with
    | .noPlugin => finallyApply env st .aborted
    | .genNull => finallyApply env st .aborted
    | .genThrow => finallyApply env st .dispatchError
    | .genMsg userPrompt _ => proceedLlm env st userPrompt
  else
    let deq := MessageQueue.dequeue st.queue
    let st := { st with queue := deq.2 }
    match deq.1 with
    | none => finallyApply env st .aborted
    | some m =>
      if m = [] then finallyApply env st .aborted
      else proceedLlm env st m

/-- `AgentLoop.run`: single-flight guard, cooldown check (with the
skip-reschedule option used by `triggerPlugin`), then the dispatch
phase. -/
def run (env : Env) (skipReschedule : Bool) (st : AgentState) :
    AgentState × RunResult :=
  if st.llmInFlight then (st, .droppedInFlight)
  else
    match st.lastLlmEndedAt with
    | some t =>
      let elapsedMs : Int := (env.now : Int) - (t : Int)
      let minMs : Int := (minIntervalSec env : Int) * 1000
      if elapsedMs < minMs then
        if skipReschedule then (st, .cooldownSkip)
        else
          let delay := max 0 (minMs - elapsedMs)
          ({ st with cooldownPending := some delay }, .rescheduled delay)
      else dispatchPhase env st
    | none => dispatchPhase env st

/-- Whether the cooldown check of `run` blocks dispatching now. -/
def cooldownBlocked (env : Env) (st : AgentState) : Bool :=
  match st.lastLlmEndedAt with
  | some t => (env.now : Int) - (t : Int) < (minIntervalSec env : Int) * 1000
  | none => false

/-! ## Debounce (`AgentLoop.trigger`, lines 105–121)

`trigger` cancels any pending debounce timer and starts a fresh 500 ms
timer that will call `run` with the supplied plugin hint.  Timers are
modelled explicitly so that cancellation is observable. -/

/-- The fixed debounce delay (`setTimeout(..., 500)`). -/
def debounceDelayMs : Nat := 500

/-- One scheduled debounce timer. -/
structure DebTimer where
  tid : Nat
  delayMs : Nat
  /-- still pending, i.e. not cancelled by `clearTimeout` -/
  live : Bool
  /-- the plugin-id hint `run` will be called with when it fires -/
  hint : Option (List Char)
deriving Repr, DecidableEq

/-- The timer world of the debounce mechanism:
`roastDebounceTimer` holds the handle of the most recently scheduled
timer. -/
structure DebWorld where
  timers : List DebTimer
  nextId : Nat
  roastDebounceTimer : Option Nat
deriving Repr, DecidableEq

/-- `AgentLoop.trigger(pluginId?)`: clear the pending debounce timer,
then schedule a fresh 500 ms timer carrying the new hint. -/
def trigger (w : DebWorld) (hint : Option (List Char)) : DebWorld :=
  let cleared :=
    match w.roastDebounceTimer with
    | some h => w.timers.map (fun t => if t.tid = h then { t with live := false } else t)
    | none => w.timers
  { timers := cleared ++ [⟨w.nextId, debounceDelayMs, true, hint⟩],
    nextId := w.nextId + 1,
    roastDebounceTimer := some w.nextId }

/-- The timers still pending (not cancelled): each will invoke `run`
with its hint when it expires. -/
def liveTimers (w : DebWorld) : List DebTimer :=
  w.timers.filter (·.live)

/-- Well-formedness of the timer world: timer ids are below the id
counter, and any live timer is the one `roastDebounceTimer` points
at. -/
def DebWorld.wf (w : DebWorld) : Prop :=
  (∀ t ∈ w.timers, t.tid < w.nextId) ∧
  (∀ t ∈ w.timers, t.live = true → w.roastDebounceTimer = some t.tid)

/-! ## Specification-side helpers used in theorem statements -/

/-- A model behaviour that always returns one pending tool call. -/
def pendingToolResp : ModelResp :=
  ⟨[], [⟨"show_quick_replies".toList, Jv.other⟩]⟩

/-- The turns the invocation loop accumulates over a sequence of
responses that all still carry tool calls. -/
def loopMsgsSpec : List ModelResp → List (List Char) → List Msg
  | [], _ => []
  | resp :: rest, pend =>
    roundMsgs pend resp ++ loopMsgsSpec rest (execToolCalls resp.toolCalls pend).2

/-- The `pendingQuickReplies` state after executing the tool calls of
a sequence of responses. -/
def pendAfterRounds : List ModelResp → List (List Char) → List (List Char)
  | [], pend => pend
  | resp :: rest, pend =>
    pendAfterRounds rest (execToolCalls resp.toolCalls pend).2

/-- The history after the normalization steps at the top of the
dispatch section (file-change reset, then system-head insertion) and
nothing else; a cycle that fails to produce an exchange leaves exactly
this. -/
def normalizedHistory (env : Env) (st : AgentState) : List Msg :=
  ensureSystemHead env.systemPrompt
    (resetOnFileChange env.editorPath st.lastFilePath st.chatHistory).1

/-- A fresh `AgentLoop` state: nothing in flight, no completed
dispatch, empty history and queue. -/
def freshState : AgentState :=
  { llmInFlight := false, lastLlmEndedAt := none, chatHistory := [],
    lastFilePath := none, cooldownPending := none, queue := MessageQueue.empty }

/-- Concrete environment exhibiting the pruning bug: `llm.maxHistory`
configured to `1`, one plugin message, one tool-free model response. -/
def c2Env : Env :=
  { editorPath := none, cfgMinIntervalSeconds := 10, cfgMaxHistory := 1,
    systemPrompt := "S".toList, quickRepliesEnabled := false,
    now := 0, endedAt := 5,
    genOutcome := .genMsg "u".toList none,
    llmScript := [⟨"a".toList, []⟩] }

/-- Concrete environment for the null-generator abort: the selected
plugin's `generateMessage` returns null. -/
def c4Env : Env :=
  { editorPath := none, cfgMinIntervalSeconds := 10, cfgMaxHistory := 5,
    systemPrompt := "S".toList, quickRepliesEnabled := false,
    now := 0, endedAt := 5,
    genOutcome := .genNull,
    llmScript := [⟨"a".toList, []⟩] }

/-! # Theorems -/

/-! ## Helper lemmas about the dispatch phase -/

theorem finallyApply_fst_inFlight (env : Env) (st : AgentState) (r : RunResult) :
    ((finallyApply env st r).1).llmInFlight = false := rfl

theorem finallyApply_fst_endedAt (env : Env) (st : AgentState) (r : RunResult) :
    ((finallyApply env st r).1).lastLlmEndedAt = some env.endedAt := rfl

theorem dispatchPhase_shape (env : Env) (st : AgentState) :
    ∃ st' r, dispatchPhase env st = finallyApply env st' r := by
  unfold dispatchPhase proceedLlm finishDispatch
  dsimp only
  repeat' split
  all_goals exact ⟨_, _, rfl⟩

theorem run_not_blocked (env : Env) (skip : Bool) (st : AgentState)
    (h1 : st.llmInFlight = false) (h2 : cooldownBlocked env st = false) :
    run env skip st = dispatchPhase env st := by
  cases hl : st.lastLlmEndedAt with
  | none => simp [run, h1, hl]
  | some t =>
    have hlt : ¬ ((env.now : Int) - (t : Int) < (minIntervalSec env : Int) * 1000) := by
      simpa [cooldownBlocked, hl] using h2
    simp [run, h1, hl, hlt]

theorem dispatchPhase_failed_history (env : Env) (st : AgentState)
    (h : ∀ tx, (dispatchPhase env st).2 ≠ .dispatched tx) :
    (dispatchPhase env st).1.chatHistory = normalizedHistory env st := by
  unfold dispatchPhase at *
  unfold proceedLlm finishDispatch at *
  unfold normalizedHistory
  dsimp only at *
  repeat' split at h
  all_goals simp_all [finallyApply]

/-! ## C1: the two-tier message queue -/

/-- C1: `enqueue` appends to the tail of the normal tier;
`enqueueFront` inserts ahead of every normal-tier entry but behind
priority entries already queued; `dequeue` drains the priority tier
first, FIFO within each tier (its result is the head of the drain
order, and the remaining queue drains to its tail); and from queue
state `[normal "a"]`, after `enqueueFront "b"`, `dequeue` returns
`"b"` and the next `dequeue` returns `"a"`. -/
theorem messageQueue_two_tier_contract :
    (∀ (q : MessageQueue) (m : List Char),
      (MessageQueue.enqueue m q).priorityTier = q.priorityTier ∧
      (MessageQueue.enqueue m q).normalTier = q.normalTier ++ [m]) ∧
    (∀ (q : MessageQueue) (m : List Char),
      MessageQueue.drainOrder (MessageQueue.enqueueFront m q) =
        q.priorityTier ++ m :: q.normalTier) ∧
    (∀ q : MessageQueue,
      (MessageQueue.dequeue q).1 = (MessageQueue.drainOrder q).head? ∧
      MessageQueue.drainOrder (MessageQueue.dequeue q).2 =
        (MessageQueue.drainOrder q).tail) ∧
    ((MessageQueue.dequeue (MessageQueue.enqueueFront "b".toList
        ⟨[], ["a".toList]⟩)).1 = some "b".toList ∧
      (MessageQueue.dequeue (MessageQueue.dequeue (MessageQueue.enqueueFront
        "b".toList ⟨[], ["a".toList]⟩)).2).1 = some "a".toList) := by
  refine ⟨?_, ?_, ?_, by decide⟩
  · intro q m
    exact ⟨rfl, rfl⟩
  · intro q m
    simp [MessageQueue.enqueueFront, MessageQueue.drainOrder]
  · rintro ⟨pt, nt⟩
    cases pt with
    | nil =>
      cases nt with
      | nil => exact ⟨rfl, rfl⟩
      | cons n ns => exact ⟨rfl, rfl⟩
    | cons p ps => exact ⟨rfl, rfl⟩

/-! ## C2: the history pruning invariant -/

/-- C2: the pruning invariant `history.length ≤ maxHistory` fails on
the code at `maxHistory = 1`: `slice(-1 * (1 - 1))` is `slice(0)`,
the whole array, so one completed dispatch cycle starting from an
empty history leaves four turns (with a duplicated system turn)
instead of at most one. -/
theorem history_prune_overflow_at_max_one :
    maxHistoryOf c2Env = 1 ∧
    (run c2Env false freshState).2 = .dispatched "a".toList ∧
    (run c2Env false freshState).1.chatHistory =
      [⟨.system, "S".toList⟩, ⟨.system, "S".toList⟩,
       ⟨.user, "u".toList⟩, ⟨.assistant, "a".toList⟩] ∧
    maxHistoryOf c2Env < ((run c2Env false freshState).1.chatHistory).length := by
  decide

/-! ## C4: failed cycles and history -/

/-- C4 counterexample: a cycle whose selected generator returns null
does not leave the conversation history exactly as it was — starting
from an empty history it still prepends the system turn before
aborting, so the history afterwards is `[system]`, not `[]`. -/
theorem null_generator_mutates_history :
    freshState.chatHistory = [] ∧
    (run c4Env false freshState).2 = .aborted ∧
    (run c4Env false freshState).1.chatHistory = [⟨.system, "S".toList⟩] ∧
    (run c4Env false freshState).1.chatHistory ≠ freshState.chatHistory := by
  decide

/-- C4 (amended): a dispatch cycle that does not produce a successful
exchange adds no turns of the exchange: a null `generateMessage`
aborts the cycle (without retrying selection), and every
non-dispatched outcome leaves the history exactly at its normalized
form — the prior history after the file-change reset and
system-prompt insertion, with no user/assistant/tool turns
appended. -/
theorem failed_cycle_history_normalized (env : Env) (skip : Bool) (st : AgentState)
    (h1 : st.llmInFlight = false) (h2 : cooldownBlocked env st = false) :
    (MessageQueue.isEmpty st.queue = true → env.genOutcome = .genNull →
      (run env skip st).2 = .aborted) ∧
    ((∀ tx, (run env skip st).2 ≠ .dispatched tx) →
      (run env skip st).1.chatHistory = normalizedHistory env st) := by
  rw [run_not_blocked env skip st h1 h2]
  constructor
  · intro hq hg
    unfold dispatchPhase
    simp only [hq, hg]
    rfl
  · exact dispatchPhase_failed_history env st

/-- C4 witness: the amended theorem at the concrete null-generator
input. -/
theorem failed_cycle_history_normalized_check :
    (run c4Env false freshState).2 = .aborted ∧
    (run c4Env false freshState).1.chatHistory =
      normalizedHistory c4Env freshState := by
  have h := failed_cycle_history_normalized c4Env false freshState rfl (by decide)
  have hres : (run c4Env false freshState).2 = RunResult.aborted := by decide
  refine ⟨h.1 rfl rfl, h.2 ?_⟩
  intro tx hcontra
  rw [hres] at hcontra
  exact RunResult.noConfusion hcontra

/-! ## C5: single flight -/

/-- C5: a `run` that starts while the in-flight flag is set returns
immediately without dispatching or touching the state, and every run
that enters the dispatch section clears the in-flight flag and records
the completion timestamp on exit — whatever the outcome. -/
theorem single_flight_guard (env : Env) (skip : Bool) (st : AgentState) :
    (st.llmInFlight = true → run env skip st = (st, .droppedInFlight)) ∧
    (st.llmInFlight = false → cooldownBlocked env st = false →
      (run env skip st).1.llmInFlight = false ∧
      (run env skip st).1.lastLlmEndedAt = some env.endedAt) := by
  constructor
  · intro h
    simp [run, h]
  · intro h1 h2
    rw [run_not_blocked env skip st h1 h2]
    obtain ⟨st', r, hr⟩ := dispatchPhase_shape env st
    rw [hr]
    exact ⟨finallyApply_fst_inFlight env st' r, finallyApply_fst_endedAt env st' r⟩

/-- C5 witness: the guard and the release at concrete inputs, on a
failing cycle (null generator) no less than on a successful one. -/
theorem single_flight_guard_check :
    run c4Env false { freshState with llmInFlight := true } =
      ({ freshState with llmInFlight := true }, .droppedInFlight) ∧
    (run c4Env false freshState).1.llmInFlight = false ∧
    (run c4Env false freshState).1.lastLlmEndedAt = some 5 := by
  refine ⟨(single_flight_guard c4Env false _).1 rfl, ?_⟩
  have h := (single_flight_guard c4Env false freshState).2 rfl (by decide)
  exact h

/-! ## C7: the cooldown floor -/

/-- C7: when a run occurs before the minimum interval since the last
completed dispatch has elapsed, a non-skipping call schedules exactly
one retry for the remaining delta (overwriting any pending cooldown
timer) and dispatches nothing now, a skipping call (direct plugin
triggers) no-ops without scheduling anything, and the interval floor
is clamped to at least 10 seconds. -/
theorem cooldown_floor (env : Env) (skip : Bool) (st : AgentState) (t : Nat)
    (h1 : st.llmInFlight = false) (h2 : st.lastLlmEndedAt = some t)
    (h3 : (env.now : Int) - (t : Int) < (minIntervalSec env : Int) * 1000) :
    (skip = false →
      run env skip st =
        ({ st with cooldownPending :=
                      some ((minIntervalSec env : Int) * 1000 - ((env.now : Int) - (t : Int))) },
          .rescheduled ((minIntervalSec env : Int) * 1000 - ((env.now : Int) - (t : Int))))) ∧
    (skip = true → run env skip st = (st, .cooldownSkip)) ∧
    10 ≤ minIntervalSec env := by
  refine ⟨?_, ?_, Nat.le_max_left _ _⟩
  · intro hskip
    subst hskip
    have hmax : max 0 ((minIntervalSec env : Int) * 1000 - ((env.now : Int) - (t : Int))) =
        (minIntervalSec env : Int) * 1000 - ((env.now : Int) - (t : Int)) := by
      omega
    simp [run, h1, h2, h3, hmax]
  · intro hskip
    subst hskip
    simp [run, h1, h2, h3]

/-- C7 witness: cooldown at a concrete input — last dispatch ended at
time 0, triggered again at time 0, configured floor 10 s. -/
theorem cooldown_floor_check :
    run c4Env false { freshState with lastLlmEndedAt := some 0 } =
      ({ freshState with lastLlmEndedAt := some 0, cooldownPending := some 10000 },
        .rescheduled 10000) ∧
    run c4Env true { freshState with lastLlmEndedAt := some 0 } =
      ({ freshState with lastLlmEndedAt := some 0 }, .cooldownSkip) := by
  have h0 := cooldown_floor c4Env false { freshState with lastLlmEndedAt := some 0 } 0
    rfl rfl (by decide)
  have h1 := cooldown_floor c4Env true { freshState with lastLlmEndedAt := some 0 } 0
    rfl rfl (by decide)
  constructor
  · have := h0.1 rfl
    simpa using this
  · exact h1.2.1 rfl

/-! ## C6: debounce collapse -/

theorem trigger_fresh_timer (w : DebWorld) (hw : w.wf) (hint : Option (List Char)) :
    (trigger w hint).wf ∧
    liveTimers (trigger w hint) = [⟨w.nextId, debounceDelayMs, true, hint⟩] ∧
    (trigger w hint).nextId = w.nextId + 1 := by
  obtain ⟨hid, hlive⟩ := hw
  have hclr : ∀ t ∈ (trigger w hint).timers.dropLast, t.live = false := by
    unfold trigger
    dsimp only
    rw [List.dropLast_concat]
    cases hh : w.roastDebounceTimer with
    | none =>
      intro t ht
      cases hl : t.live with
      | false => rfl
      | true => exact absurd (hlive t ht hl) (by simp [hh])
    | some hdl =>
      intro t ht
      obtain ⟨t0, ht0, rfl⟩ := List.mem_map.1 ht
      by_cases he : t0.tid = hdl
      · simp [he]
      · simp only [he, if_false]
        cases hl : t0.live with
        | false => rfl
        | true =>
          have := hlive t0 ht0 hl
          rw [hh] at this
          exact absurd (Option.some.inj this).symm he
  have htimers : (trigger w hint).timers =
      (trigger w hint).timers.dropLast ++ [⟨w.nextId, debounceDelayMs, true, hint⟩] := by
    unfold trigger
    dsimp only
    rw [List.dropLast_concat]
  have htid : ∀ t ∈ (trigger w hint).timers.dropLast, t.tid < w.nextId := by
    unfold trigger
    dsimp only
    rw [List.dropLast_concat]
    cases hh : w.roastDebounceTimer with
    | none => exact fun t ht => hid t ht
    | some hdl =>
      intro t ht
      obtain ⟨t0, ht0, rfl⟩ := List.mem_map.1 ht
      by_cases he : t0.tid = hdl
      · simpa [he] using hid t0 ht0
      · simpa [he] using hid t0 ht0
  refine ⟨⟨?_, ?_⟩, ?_, rfl⟩
  · intro t ht
    rw [htimers] at ht
    rcases List.mem_append.1 ht with h | h
    · have := htid t h
      simp only [trigger]
      omega
    · rw [List.mem_singleton] at h
      subst h
      simp [trigger]
  · intro t ht hl
    rw [htimers] at ht
    rcases List.mem_append.1 ht with h | h
    · rw [hclr t h] at hl
      exact absurd hl (by simp)
    · rw [List.mem_singleton] at h
      subst h
      rfl
  · unfold liveTimers
    rw [htimers, List.filter_append]
    have h1 : (trigger w hint).timers.dropLast.filter (·.live) = [] := by
      rw [List.filter_eq_nil_iff]
      intro t ht
      simp [hclr t ht]
    rw [h1]
    rfl

/-- C6: a burst of `trigger()` calls within the debounce window leaves
exactly one pending (non-cancelled) debounce timer — each call cancels
the previous timer and starts a fresh fixed 500 ms one — so exactly
one dispatch attempt results, and it carries the hint supplied by the
last call of the burst. -/
theorem debounce_collapse (w : DebWorld) (hints : List (Option (List Char)))
    (lastHint : Option (List Char)) (hw : w.wf)
    (hlast : hints.getLast? = some lastHint) :
    (hints.foldl trigger w).wf ∧
    liveTimers (hints.foldl trigger w) =
      [⟨w.nextId + hints.length - 1, debounceDelayMs, true, lastHint⟩] ∧
    (liveTimers (hints.foldl trigger w)).map DebTimer.hint = [lastHint] := by
  induction hints generalizing w with
  | nil => exact absurd hlast (by simp)
  | cons h hs ih =>
    cases hs with
    | nil =>
      have hl : h = lastHint := by simpa using hlast
      obtain ⟨hwf, hlive, -⟩ := trigger_fresh_timer w hw h
      rw [List.foldl_cons]
      simp only [List.foldl_nil]
      refine ⟨hwf, ?_, ?_⟩ <;> rw [hlive] <;> simp [hl]
    | cons h2 hs2 =>
      have hlast2 : (h2 :: hs2).getLast? = some lastHint := by
        rw [List.getLast?_cons_cons] at hlast
        exact hlast
      obtain ⟨hwf, -, hnext⟩ := trigger_fresh_timer w hw h
      have ihr := ih (trigger w h) hwf hlast2
      rw [List.foldl_cons]
      refine ⟨ihr.1, ?_, ihr.2.2⟩
      rw [ihr.2.1, hnext]
      have harith : w.nextId + 1 + (h2 :: hs2).length - 1 =
          w.nextId + (h :: h2 :: hs2).length - 1 := by
        simp only [List.length_cons]
        omega
      rw [harith]

/-- C6 witness: a three-call burst from an empty timer world leaves
one live 500 ms timer carrying the last call's hint. -/
theorem debounce_collapse_check :
    liveTimers ([some "x".toList, none, some "y".toList].foldl trigger ⟨[], 0, none⟩) =
      [⟨2, debounceDelayMs, true, some "y".toList⟩] := by
  have h := debounce_collapse ⟨[], 0, none⟩ [some "x".toList, none, some "y".toList]
    (some "y".toList) ⟨by simp, by simp⟩ rfl
  simpa using h.2.1

/-! ## C8: the model invocation loop has no round cap -/

/-- C8: the tool-call loop executes every tool call of each response,
appends the tool-result turns and re-invokes the model, terminating
exactly at the first response carrying no tool calls (accumulating the
specified turns); and no round cap is enforced: under a model
behaviour that always returns a pending tool call, the loop completes
within no bound `n` of rounds. -/
theorem tool_loop_no_round_cap :
    (∀ (n : Nat) (pend : List (List Char)) (acc : List Msg),
      toolLoopGo (List.replicate n pendingToolResp) pend acc = none) ∧
    (∀ (pre : List ModelResp) (stopResp : ModelResp) (rest : List ModelResp)
        (pend : List (List Char)) (acc : List Msg),
      (∀ resp ∈ pre, resp.toolCalls ≠ []) → stopResp.toolCalls = [] →
      toolLoopGo (pre ++ stopResp :: rest) pend acc =
        some (acc ++ loopMsgsSpec pre pend ++ [⟨.assistant, stopResp.content⟩],
              stopResp, pendAfterRounds pre pend)) := by
  constructor
  · intro n
    induction n with
    | zero => intro pend acc; rfl
    | succ m ih =>
      intro pend acc
      rw [List.replicate_succ]
      simp only [toolLoopGo, pendingToolResp, List.isEmpty_cons]
      exact ih _ _
  · intro pre
    induction pre with
    | nil =>
      intro stopResp rest pend acc _ hstop
      simp [toolLoopGo, hstop, loopMsgsSpec, pendAfterRounds]
    | cons r pre' ih =>
      intro stopResp rest pend acc hpre hstop
      have hr : r.toolCalls ≠ [] := hpre r (List.mem_cons_self r pre')
      have hre : r.toolCalls.isEmpty = false := by
        simpa [List.isEmpty_iff] using hr
      rw [List.cons_append]
      simp only [toolLoopGo, hre, if_false]
      rw [ih stopResp rest _ _ (fun resp hresp => hpre resp (List.mem_cons_of_mem r hresp)) hstop]
      simp [loopMsgsSpec, pendAfterRounds, roundMsgs, List.append_assoc]

/-- C8 witness: the always-tool-call behaviour exhausts a 2-round
budget without completing, while a script whose second response
carries no tool calls terminates right there with the accumulated
turns. -/
theorem tool_loop_no_round_cap_check :
    toolLoopGo (List.replicate 2 pendingToolResp) [] [] = none ∧
    toolLoopGo [pendingToolResp, ⟨"d".toList, []⟩] [] [] =
      some (loopMsgsSpec [pendingToolResp] [] ++ [⟨.assistant, "d".toList⟩],
            ⟨"d".toList, []⟩, pendAfterRounds [pendingToolResp] []) := by
  refine ⟨tool_loop_no_round_cap.1 2 [] [], ?_⟩
  have h := tool_loop_no_round_cap.2 [pendingToolResp] ⟨"d".toList, []⟩ [] [] []
    (by
      intro resp hresp
      rw [List.mem_singleton] at hresp
      subst hresp
      simp [pendingToolResp])
    rfl
  simpa using h

/-! ## Trimming lemmas -/

theorem dropWhile_dropWhile (p : Char → Bool) (l : List Char) :
    (l.dropWhile p).dropWhile p = l.dropWhile p := by
  induction l with
  | nil => rfl
  | cons c cs ih =>
    by_cases hc : p c = true
    · simpa [List.dropWhile_cons, hc] using ih
    · simp [List.dropWhile_cons, hc]

theorem head_dropWhile_not (p : Char → Bool) (l : List Char) (c : Char)
    (h : (l.dropWhile p).head? = some c) : p c = false := by
  induction l with
  | nil => simp at h
  | cons a t ih =>
    by_cases ha : p a = true
    · rw [List.dropWhile_cons, if_pos ha] at h
      exact ih h
    · rw [List.dropWhile_cons, if_neg ha] at h
      simp only [List.head?_cons, Option.some.injEq] at h
      rw [← h]
      exact Bool.not_eq_true _ ▸ ha

theorem trimRight_prefix (l : List Char) : trimRight l <+: l := by
  rw [← List.reverse_suffix]
  unfold trimRight
  rw [List.reverse_reverse]
  exact List.dropWhile_suffix _

theorem trimRight_trimRight (l : List Char) :
    trimRight (trimRight l) = trimRight l := by
  unfold trimRight
  rw [List.reverse_reverse, dropWhile_dropWhile]

theorem trimLeft_trimRight_of_trimmed (u : List Char)
    (hu : trimLeft u = u) : trimLeft (trimRight u) = trimRight u := by
  cases u with
  | nil =>
    have : trimRight ([] : List Char) = [] := rfl
    rw [this]
    rfl
  | cons c t =>
    have hc : isJsWs c = false := by
      unfold trimLeft at hu
      by_cases h : isJsWs c = true
      · rw [List.dropWhile_cons, if_pos h] at hu
        have := congrArg List.length hu
        have hle : (List.dropWhile isJsWs t).length ≤ t.length :=
          (List.dropWhile_sublist isJsWs).length_le
        simp at this
        omega
      · exact Bool.not_eq_true _ ▸ h
    cases hr : trimRight (c :: t) with
    | nil => rfl
    | cons d t' =>
      have hpre := trimRight_prefix (c :: t)
      rw [hr] at hpre
      obtain ⟨r, hrr⟩ := hpre
      have hd : d = c := by
        have := hrr
        simp only [List.cons_append] at this
        exact (List.cons.inj this).1
      subst hd
      unfold trimLeft
      rw [List.dropWhile_cons, if_neg (by simp [hc])]

theorem trimChars_trimChars (s : List Char) :
    trimChars (trimChars s) = trimChars s := by
  unfold trimChars
  rw [trimLeft_trimRight_of_trimmed (trimLeft s) (dropWhile_dropWhile isJsWs s),
    trimRight_trimRight]

/-! ## C10: quick-reply normalization -/

theorem mem_firstOccDedup {x : List Char} :
    ∀ {l : List (List Char)}, x ∈ firstOccDedup l → x ∈ l := by
  intro l
  induction l using firstOccDedup.induct with
  | case1 => intro h; exact absurd h (by simp [firstOccDedup])
  | case2 c t ih =>
    intro h
    rw [firstOccDedup] at h
    rcases List.mem_cons.1 h with h | h
    · exact h ▸ List.mem_cons_self _ _
    · exact List.mem_cons_of_mem _ (List.mem_of_mem_filter (ih h))

theorem firstOccDedup_nodup : ∀ l : List (List Char), (firstOccDedup l).Nodup := by
  intro l
  induction l using firstOccDedup.induct with
  | case1 => simp [firstOccDedup]
  | case2 c t ih =>
    rw [firstOccDedup]
    refine List.nodup_cons.2 ⟨?_, ih⟩
    intro hmem
    have := List.of_mem_filter (mem_firstOccDedup hmem)
    simp at this

theorem quickReplyCandidate_spec (item : Jv) (c : List Char)
    (h : quickReplyCandidate item = some c) : c ≠ [] ∧ trimChars c = c := by
  cases item with
  | str s =>
    simp only [quickReplyCandidate] at h
    by_cases he : trimChars s = []
    · rw [if_pos he] at h
      exact absurd h (by simp)
    · rw [if_neg he] at h
      have hc : c = trimChars s := (Option.some.inj h).symm
      subst hc
      exact ⟨he, trimChars_trimChars s⟩
  | obj fields =>
    simp only [quickReplyCandidate] at h
    obtain ⟨k, hk, hck⟩ := Option.bind_eq_some.1 h
    have hpred := List.find?_some hk
    cases hl : jvLookup fields k with
    | none => rw [hl] at hpred; simp at hpred
    | some v =>
      cases v with
      | str sv =>
        rw [hl] at hpred hck
        have hne : trimChars sv ≠ [] := by simpa using hpred
        have hc : c = trimChars sv := (Option.some.inj hck).symm
        subst hc
        exact ⟨hne, trimChars_trimChars sv⟩
      | obj f2 => rw [hl] at hpred; simp at hpred
      | arr e2 => rw [hl] at hpred; simp at hpred
      | other => rw [hl] at hpred; simp at hpred
  | arr elems => exact absurd h (by simp [quickReplyCandidate])
  | other => exact absurd h (by simp [quickReplyCandidate])

theorem normGo_spec (items : List Jv) :
    ∀ (seen replies : List (List Char)),
    replies.length < normalizeQuickRepliesCap →
    normalizeQuickRepliesGo items seen replies =
      replies ++ (firstOccDedup ((items.filterMap quickReplyCandidate).filter
        (fun c => decide (c ∉ seen)))).take (normalizeQuickRepliesCap - replies.length) := by
  induction items with
  | nil => intro seen replies _; simp [normalizeQuickRepliesGo, firstOccDedup]
  | cons item rest ih =>
    intro seen replies hlen
    cases hc : quickReplyCandidate item with
    | none =>
      simp only [normalizeQuickRepliesGo, hc]
      rw [ih seen replies hlen]
      rw [List.filterMap_cons_none hc]
    | some c =>
      simp only [normalizeQuickRepliesGo, hc]
      rw [List.filterMap_cons_some hc]
      by_cases hs : c ∈ seen
      · rw [if_pos hs, ih seen replies hlen]
        have : (c :: rest.filterMap quickReplyCandidate).filter
            (fun x => decide (x ∉ seen)) =
            (rest.filterMap quickReplyCandidate).filter (fun x => decide (x ∉ seen)) := by
          rw [List.filter_cons]
          simp [hs]
        rw [this]
      · rw [if_neg hs]
        have hfc : (c :: rest.filterMap quickReplyCandidate).filter
            (fun x => decide (x ∉ seen)) =
            c :: (rest.filterMap quickReplyCandidate).filter (fun x => decide (x ∉ seen)) := by
          rw [List.filter_cons]
          simp [hs]
        rw [hfc, firstOccDedup]
        have htake : normalizeQuickRepliesCap - replies.length =
            (normalizeQuickRepliesCap - (replies.length + 1)) + 1 := by
          unfold normalizeQuickRepliesCap at *
          omega
        rw [htake, List.take_succ_cons]
        by_cases hfull : normalizeQuickRepliesCap ≤ (replies ++ [c]).length
        · rw [if_pos hfull]
          have hz : normalizeQuickRepliesCap - (replies.length + 1) = 0 := by
            simp only [List.length_append, List.length_cons, List.length_nil] at hfull
            omega
          rw [hz, List.take_zero]
        · rw [if_neg hfull]
          have hlen2 : (replies ++ [c]).length < normalizeQuickRepliesCap := by
            omega
          rw [ih (c :: seen) (replies ++ [c]) hlen2]
          have hff : ((rest.filterMap quickReplyCandidate).filter
              (fun x => decide (x ∉ seen))).filter (fun x => decide (x ≠ c)) =
              (rest.filterMap quickReplyCandidate).filter
                (fun x => decide (x ∉ c :: seen)) := by
            rw [List.filter_filter]
            refine List.filter_congr ?_
            intro x _
            by_cases hx1 : x = c <;> by_cases hx2 : x ∈ seen <;> simp [hx1, hx2]
          rw [hff]
          simp only [List.length_append, List.length_cons, List.length_nil]
          rw [List.append_assoc]
          rfl

/-- C10: for any tool-call arguments, the quick-reply list produced by
normalization equals the first-occurrence deduplication of the trimmed
candidates truncated to 5 entries — so it contains only non-empty
trimmed strings, has no duplicates, preserves first-occurrence order,
and has at most 5 entries, even though the advertised tool schema
bounds `replies` between 1 and 3 items; non-array input yields the
empty list. -/
theorem normalize_quick_replies_spec :
    (∀ items : List Jv,
      normalizeQuickReplies (.arr items) =
        (firstOccDedup (items.filterMap quickReplyCandidate)).take
          normalizeQuickRepliesCap ∧
      (normalizeQuickReplies (.arr items)).length ≤ normalizeQuickRepliesCap ∧
      (normalizeQuickReplies (.arr items)).Nodup ∧
      (∀ r ∈ normalizeQuickReplies (.arr items), r ≠ [] ∧ trimChars r = r)) ∧
    (∀ input : Jv, (∀ items, input ≠ .arr items) → normalizeQuickReplies input = []) ∧
    quickReplyToolMinItems = 1 ∧ quickReplyToolMaxItems = 3 ∧
    quickReplyToolMaxItems < normalizeQuickRepliesCap := by
  have hmain : ∀ items : List Jv,
      normalizeQuickReplies (.arr items) =
        (firstOccDedup (items.filterMap quickReplyCandidate)).take
          normalizeQuickRepliesCap := by
    intro items
    simp only [normalizeQuickReplies]
    rw [normGo_spec items [] [] (by norm_num [normalizeQuickRepliesCap])]
    have : (items.filterMap quickReplyCandidate).filter
        (fun c => decide (c ∉ ([] : List (List Char)))) =
        items.filterMap quickReplyCandidate := by
      simp
    rw [this]
    simp
  refine ⟨?_, ?_, rfl, rfl, by norm_num [quickReplyToolMaxItems, normalizeQuickRepliesCap]⟩
  · intro items
    refine ⟨hmain items, ?_, ?_, ?_⟩
    · rw [hmain items]
      have := List.length_take normalizeQuickRepliesCap
        (firstOccDedup (items.filterMap quickReplyCandidate))
      omega
    · rw [hmain items]
      exact (firstOccDedup_nodup _).sublist (List.take_sublist _ _)
    · intro r hr
      rw [hmain items] at hr
      have hr2 := mem_firstOccDedup (List.take_subset _ _ hr)
      obtain ⟨item, _, hcand⟩ := List.mem_filterMap.1 hr2
      exact quickReplyCandidate_spec item r hcand
  · intro input h
    cases input with
    | arr items => exact absurd rfl (h items)
    | str s => rfl
    | obj fields => rfl
    | other => rfl

/-- C10 witness: normalization at a concrete argument list with
whitespace, duplicates, an object item and overflow past five
entries. -/
theorem normalize_quick_replies_spec_check :
    normalizeQuickReplies (.arr [.str " a ".toList, .str "a".toList, .other,
        .obj [("text".toList, Jv.str " b".toList)], .str "c".toList,
        .str "d".toList, .str "e".toList, .str "f".toList]) =
      ["a".toList, "b".toList, "c".toList, "d".toList, "e".toList] ∧
    (normalizeQuickReplies (.arr [.str " a ".toList, .str "a".toList, .other,
        .obj [("text".toList, Jv.str " b".toList)], .str "c".toList,
        .str "d".toList, .str "e".toList, .str "f".toList])).Nodup ∧
    normalizeQuickReplies .other = [] := by
  refine ⟨by decide, (normalize_quick_replies_spec.1 _).2.2.1,
    normalize_quick_replies_spec.2.1 .other (fun items h => Jv.noConfusion h)⟩

/-! ## C3: weighted random plugin selection -/

theorem selectScan_isSome (pairs : List (Plugin × ℚ)) :
    ∀ r : ℚ, pairs ≠ [] → r < (pairs.map (·.2)).sum →
    ∃ p, selectScan r pairs = some p := by
  induction pairs with
  | nil => intro r h _; exact absurd rfl h
  | cons pw rest ih =>
    intro r _ hlt
    obtain ⟨p, w⟩ := pw
    by_cases hhit : r - w ≤ 0
    · exact ⟨p, by simp [selectScan, hhit]⟩
    · cases rest with
      | nil =>
        exfalso
        simp only [List.map_cons, List.map_nil, List.sum_cons, List.sum_nil,
          add_zero] at hlt
        exact hhit (by linarith)
      | cons q qs =>
        have hlt2 : r - w < ((q :: qs).map (·.2)).sum := by
          simp only [List.map_cons, List.sum_cons] at hlt ⊢
          linarith
        obtain ⟨p2, hp2⟩ := ih (r - w) (by simp) hlt2
        refine ⟨p2, ?_⟩
        show (if r - w ≤ 0 then some p else selectScan (r - w) (q :: qs)) = some p2
        rw [if_neg hhit]
        exact hp2

/-- C3: `selectRandomPlugin` draws from the registered plugins that
are enabled and whose `shouldTrigger` hook (absent means always
eligible) returns true, preserving registration order; it returns
none exactly when that candidate set is empty or its total effective
weight is zero; the effective weight is the configured override when
present and non-negative, else the plugin's own default (1.0 when it
has none); and for a draw `r` in `[0, totalWeight)` it returns the
first candidate, in registration order, whose weight subtraction
drops `r` to or below zero — the final fallback is never consulted. -/
theorem select_random_plugin_spec (cfg : PluginConfig) (r : ℚ) (plugins : List Plugin) :
    (selectRandomPlugin cfg r plugins = none ↔
      eligiblePlugins plugins = [] ∨
      ((eligiblePlugins plugins).map (getPluginWeight cfg)).sum = 0) ∧
    List.Sublist (eligiblePlugins plugins) plugins ∧
    (∀ p ∈ plugins, p.enabledFor = true → p.shouldTriggerHook = none →
      p ∈ eligiblePlugins plugins) ∧
    (∀ (p : Plugin) (w : ℚ), cfg.weightOverride p.pid = some w → 0 ≤ w →
      getPluginWeight cfg p = w) ∧
    (∀ (p : Plugin) (w : ℚ), cfg.weightOverride p.pid = some w → w < 0 →
      getPluginWeight cfg p = p.getWeightHook.getD 1) ∧
    (∀ p : Plugin, cfg.weightOverride p.pid = none →
      getPluginWeight cfg p = p.getWeightHook.getD 1) ∧
    (∀ p : Plugin, cfg.weightOverride p.pid = none → p.getWeightHook = none →
      getPluginWeight cfg p = 1) ∧
    (0 ≤ r → r < ((eligiblePlugins plugins).map (getPluginWeight cfg)).sum →
      selectRandomPlugin cfg r plugins =
        selectScan r ((eligiblePlugins plugins).zip
          ((eligiblePlugins plugins).map (getPluginWeight cfg)))) := by
  refine ⟨?_, ?_, ?_, ?_, ?_, ?_, ?_, ?_⟩
  · unfold selectRandomPlugin
    by_cases h1 : (eligiblePlugins plugins).isEmpty
    · simp only [h1, if_true]
      simp only [List.isEmpty_iff] at h1
      simp [h1]
    · simp only [h1, if_false]
      simp only [List.isEmpty_iff] at h1
      by_cases h2 : ((eligiblePlugins plugins).map (getPluginWeight cfg)).sum = 0
      · simp [h2, h1]
      · simp only [h2, if_false]
        cases hscan : selectScan r ((eligiblePlugins plugins).zip
            ((eligiblePlugins plugins).map (getPluginWeight cfg))) with
        | some p => simp [h1, h2]
        | none =>
          have : (eligiblePlugins plugins).getLast?.isSome := by
            rw [List.getLast?_isSome]
            exact h1
          obtain ⟨q, hq⟩ := Option.isSome_iff_exists.1 this
          simp [hq, h1, h2]
  · exact (List.filter_sublist _).trans (List.filter_sublist _)
  · intro p hp hen htr
    unfold eligiblePlugins
    refine List.mem_filter.2 ⟨List.mem_filter.2 ⟨hp, by simp [hen]⟩, by simp [htr]⟩
  · intro p w hw hw0
    simp [getPluginWeight, hw, hw0]
  · intro p w hw hwneg
    simp [getPluginWeight, hw, not_le.2 hwneg]
  · intro p hw
    simp [getPluginWeight, hw]
  · intro p hw hd
    simp [getPluginWeight, hw, hd]
  · intro hr0 hrlt
    have hne : eligiblePlugins plugins ≠ [] := by
      intro hnil
      rw [hnil] at hrlt
      simp at hrlt
      exact absurd (lt_of_le_of_lt hr0 hrlt) (lt_irrefl 0)
    have hzip : (((eligiblePlugins plugins).zip
        ((eligiblePlugins plugins).map (getPluginWeight cfg))).map (·.2)) =
        (eligiblePlugins plugins).map (getPluginWeight cfg) := by
      rw [List.map_snd_zip]
      simp
    have hzipne : (eligiblePlugins plugins).zip
        ((eligiblePlugins plugins).map (getPluginWeight cfg)) ≠ [] := by
      intro hz
      have := congrArg List.length hz
      simp only [List.length_zip, List.length_map, Nat.min_self,
        List.length_nil] at this
      exact hne (List.length_eq_zero.1 this)
    obtain ⟨p, hp⟩ := selectScan_isSome _ r hzipne (by rw [hzip]; exact hrlt)
    unfold selectRandomPlugin
    have h1 : (eligiblePlugins plugins).isEmpty = false := by
      simpa [List.isEmpty_iff] using hne
    have h2 : ((eligiblePlugins plugins).map (getPluginWeight cfg)).sum ≠ 0 := by
      intro h0
      rw [h0] at hrlt
      exact absurd (lt_of_le_of_lt hr0 hrlt) (lt_irrefl 0)
    simp [h1, h2, hp]

/-- C3 witness: two enabled plugins with weights 1 and 3 and a draw of
2 select the second plugin (1 is subtracted, then 3 drops the value
below zero). -/
theorem select_random_plugin_spec_check :
    selectRandomPlugin ⟨fun _ => none⟩ 2
        [⟨0, true, none, none⟩, ⟨1, true, some 3, some true⟩] =
      some ⟨1, true, some 3, some true⟩ ∧
    getPluginWeight ⟨fun _ => none⟩ ⟨0, true, none, none⟩ = 1 := by
  constructor
  · have h := (select_random_plugin_spec ⟨fun _ => none⟩ 2
      [⟨0, true, none, none⟩, ⟨1, true, some 3, some true⟩]).2.2.2.2.2.2.2
      (by norm_num) (by norm_num [eligiblePlugins, getPluginWeight])
    rw [h]
    norm_num [eligiblePlugins, getPluginWeight, selectScan]
  · exact (select_random_plugin_spec ⟨fun _ => none⟩ 2 []).2.2.2.2.2.2.1
      ⟨0, true, none, none⟩ rfl rfl

/-! ## C9: lemmas about lines, trimming and searching -/

theorem dropWhile_append_all (p : Char → Bool) (l₁ l₂ : List Char)
    (h : ∀ c ∈ l₁, p c = true) :
    (l₁ ++ l₂).dropWhile p = l₂.dropWhile p := by
  induction l₁ with
  | nil => rfl
  | cons c cs ih =>
    rw [List.cons_append, List.dropWhile_cons, if_pos (h c (List.mem_cons_self c cs))]
    exact ih (fun x hx => h x (List.mem_cons_of_mem c hx))

theorem dropWhile_eq_self_of_head (p : Char → Bool) (l : List Char)
    (h : ∀ c, l.head? = some c → p c = false) : l.dropWhile p = l := by
  cases l with
  | nil => rfl
  | cons c cs =>
    rw [List.dropWhile_cons, if_neg]
    simp [h c rfl]

theorem trimRight_eq_self (l : List Char)
    (h : ∀ c, l.getLast? = some c → isJsWs c = false) : trimRight l = l := by
  unfold trimRight
  rw [dropWhile_eq_self_of_head isJsWs l.reverse
    (fun c hc => h c ((List.head?_reverse l) ▸ hc)), List.reverse_reverse]

theorem trimChars_eq_self (l : List Char)
    (h1 : ∀ c, l.head? = some c → isJsWs c = false)
    (h2 : ∀ c, l.getLast? = some c → isJsWs c = false) : trimChars l = l := by
  unfold trimChars trimLeft
  rw [dropWhile_eq_self_of_head isJsWs l h1]
  exact trimRight_eq_self l h2

theorem splitNl_cons (c : Char) (cs : List Char) :
    splitNl (c :: cs) =
      if c = '\n' then [] :: splitNl cs
      else
        match splitNl cs with
        | [] => [[c]]
        | l :: ls => (c :: l) :: ls := rfl

theorem joinNl_single (x : List Char) : joinNl [x] = x := rfl

theorem joinNl_pair (x y : List Char) (ys : List (List Char)) :
    joinNl (x :: y :: ys) = x ++ '\n' :: joinNl (y :: ys) := rfl

theorem splitNl_ne_nil (s : List Char) : splitNl s ≠ [] := by
  cases s with
  | nil => simp [splitNl]
  | cons c cs =>
    rw [splitNl_cons]
    by_cases hc : c = '\n'
    · simp [hc]
    · simp only [hc, if_false]
      cases splitNl cs <;> simp

theorem joinNl_splitNl (s : List Char) : joinNl (splitNl s) = s := by
  induction s with
  | nil => rfl
  | cons c cs ih =>
    rw [splitNl_cons]
    by_cases hc : c = '\n'
    · subst hc
      rw [if_pos rfl]
      cases hsp : splitNl cs with
      | nil => exact absurd hsp (splitNl_ne_nil cs)
      | cons l ls =>
        rw [joinNl_pair]
        rw [hsp] at ih
        simp [ih]
    · rw [if_neg hc]
      cases hsp : splitNl cs with
      | nil => exact absurd hsp (splitNl_ne_nil cs)
      | cons l ls =>
        rw [hsp] at ih
        cases ls with
        | nil =>
          rw [joinNl_single] at ih
          rw [joinNl_single, ih]
        | cons l2 ls2 =>
          rw [joinNl_pair] at ih
          rw [joinNl_pair, List.cons_append, ih]

theorem splitNl_append_left (x y : List Char) (hx : ∀ c ∈ x, c ≠ '\n') :
    splitNl (x ++ '\n' :: y) = x :: splitNl y := by
  induction x with
  | nil => simp [splitNl_cons]
  | cons c cs ih =>
    rw [List.cons_append, splitNl_cons,
      if_neg (hx c (List.mem_cons_self c cs)),
      ih (fun a ha => hx a (List.mem_cons_of_mem c ha))]

theorem splitNl_nl_free (y : List Char) (hy : ∀ c ∈ y, c ≠ '\n') :
    splitNl y = [y] := by
  induction y with
  | nil => rfl
  | cons c cs ih =>
    rw [splitNl_cons, if_neg (hy c (List.mem_cons_self c cs)),
      ih (fun a ha => hy a (List.mem_cons_of_mem c ha))]

theorem splitNl_append_right (x y : List Char) (hy : ∀ c ∈ y, c ≠ '\n') :
    splitNl (x ++ '\n' :: y) = splitNl x ++ [y] := by
  induction x with
  | nil =>
    rw [List.nil_append, splitNl_cons, if_pos rfl, splitNl_nl_free y hy]
    rfl
  | cons c cs ih =>
    rw [List.cons_append, splitNl_cons]
    by_cases hc : c = '\n'
    · subst hc
      rw [if_pos rfl, ih, splitNl_cons, if_pos rfl]
      rfl
    · rw [if_neg hc, ih]
      cases hsp : splitNl cs with
      | nil => exact absurd hsp (splitNl_ne_nil cs)
      | cons l ls =>
        rw [splitNl_cons, if_neg hc, hsp]
        rfl

/-- B2: a fully fence-wrapped text (backticks, a word-character
language tag, a newline, the body, then the closing fence line) loses
exactly the opening and closing fence lines. -/
theorem stripCodeBlockTags_wrapped (lang body : List Char)
    (hlang : ∀ c ∈ lang, isWordChar c = true) :
    stripCodeBlockTags
      ('`' :: '`' :: '`' :: lang ++ '\n' :: (body ++ '\n' :: ['`', '`', '`'])) = body := by
  have hlangnl : ∀ c ∈ lang, c ≠ '\n' := by
    intro c hc he
    have := hlang c hc
    rw [he] at this
    simp [isWordChar] at this
  have hfirstnl : ∀ c ∈ '`' :: '`' :: '`' :: lang, c ≠ '\n' := by
    intro c hc
    rcases List.mem_cons.1 hc with h | h
    · rw [h]; simp
    · rcases List.mem_cons.1 h with h2 | h2
      · rw [h2]; simp
      · rcases List.mem_cons.1 h2 with h3 | h3
        · rw [h3]; simp
        · exact hlangnl c h3
  have htrim : trimChars
      ('`' :: '`' :: '`' :: lang ++ '\n' :: (body ++ '\n' :: ['`', '`', '`'])) =
      '`' :: '`' :: '`' :: lang ++ '\n' :: (body ++ '\n' :: ['`', '`', '`']) := by
    refine trimChars_eq_self _ ?_ ?_
    · intro c hc
      simp only [List.cons_append, List.head?_cons, Option.some.injEq] at hc
      subst hc
      decide
    · intro c hc
      have hrw : '`' :: '`' :: '`' :: lang ++ '\n' :: (body ++ '\n' :: ['`', '`', '`']) =
          ('`' :: '`' :: '`' :: lang ++ '\n' :: (body ++ ['\n', '`', '`'])) ++ ['`'] := by
        simp
      rw [hrw, List.getLast?_concat] at hc
      simp only [Option.some.injEq] at hc
      subst hc
      decide
  have hstart : startsWithCodeFence
      ('`' :: '`' :: '`' :: lang ++ '\n' :: (body ++ '\n' :: ['`', '`', '`'])) = true := by
    show decide (((lang ++ '\n' :: (body ++ '\n' :: ['`', '`', '`'])).dropWhile
      isWordChar).head? = some '\n') = true
    rw [decide_eq_true_eq]
    rw [dropWhile_append_all isWordChar lang _ hlang]
    rw [List.dropWhile_cons, if_neg (by simp [isWordChar])]
    rfl
  have hend : endsWithCodeFence
      ('`' :: '`' :: '`' :: lang ++ '\n' :: (body ++ '\n' :: ['`', '`', '`'])) = true := by
    unfold endsWithCodeFence
    have hrw : '`' :: '`' :: '`' :: lang ++ '\n' :: (body ++ '\n' :: ['`', '`', '`']) =
        ('`' :: '`' :: '`' :: lang ++ '\n' :: body) ++ ['\n', '`', '`', '`'] := by
      simp
    rw [hrw]
    exact List.isSuffixOf_iff_suffix.2 (List.suffix_append _ _)
  unfold stripCodeBlockTags
  rw [htrim]
  rw [if_pos (by rw [fenceWrapped, hstart, hend]; rfl)]
  have hsplit : splitNl
      ('`' :: '`' :: '`' :: lang ++ '\n' :: (body ++ '\n' :: ['`', '`', '`'])) =
      ('`' :: '`' :: '`' :: lang) :: (splitNl body ++ [['`', '`', '`']]) := by
    rw [splitNl_append_left _ _ hfirstnl]
    rw [splitNl_append_right body ['`', '`', '`'] (by intro c hc; fin_cases hc <;> simp)]
  rw [hsplit]
  rw [List.drop_one, List.tail_cons, List.dropLast_concat]
  exact joinNl_splitNl body

/-! ## C9: lemmas about case-insensitive search -/

theorem findSubCi_cons (pat : List Char) (c : Char) (cs : List Char) :
    findSubCi pat (c :: cs) =
      if isPrefixOfCi pat (c :: cs) then some ([], (c :: cs).drop pat.length)
      else
        match findSubCi pat cs with
        | some (a, b) => some (c :: a, b)
        | none => none := rfl

theorem isPrefixOfCi_length {pat s : List Char} (h : isPrefixOfCi pat s = true) :
    pat.length ≤ s.length := by
  unfold isPrefixOfCi at h
  rw [beq_iff_eq] at h
  have hl := congrArg List.length h
  simp only [List.length_map, List.length_take] at hl
  omega

theorem findSubCi_length {pat : List Char} (hne : pat ≠ []) :
    ∀ {s a b : List Char}, findSubCi pat s = some (a, b) →
      a.length + pat.length + b.length = s.length := by
  intro s
  induction s with
  | nil =>
    intro a b h
    unfold findSubCi at h
    simp [List.isEmpty_iff, hne] at h
  | cons c cs ih =>
    intro a b h
    rw [findSubCi_cons] at h
    by_cases hp : isPrefixOfCi pat (c :: cs) = true
    · rw [if_pos hp] at h
      simp only [Option.some.injEq, Prod.mk.injEq] at h
      obtain ⟨ha, hb⟩ := h
      subst ha
      subst hb
      have hle := isPrefixOfCi_length hp
      simp only [List.length_nil, List.length_drop]
      simp only [List.length_cons] at hle ⊢
      omega
    · rw [if_neg hp] at h
      cases hfs : findSubCi pat cs with
      | none => rw [hfs] at h; exact absurd h (by simp)
      | some ab =>
        obtain ⟨a2, b2⟩ := ab
        rw [hfs] at h
        simp only [Option.some.injEq, Prod.mk.injEq] at h
        obtain ⟨ha, hb⟩ := h
        subst ha
        subst hb
        have := ih hfs
        simp only [List.length_cons]
        omega

theorem findSubCi_append_self (pat : List Char)
    (hlow : pat.map Char.toLower = pat) (hne : pat ≠ [])
    (hbord : ∀ j, j < pat.length → 1 ≤ j →
      pat.drop j ≠ pat.take (pat.length - j)) :
    ∀ (a b : List Char), findSubCi pat a = none →
      findSubCi pat (a ++ (pat ++ b)) = some (a, b) := by
  intro a
  induction a with
  | nil =>
    intro b _
    rw [List.nil_append]
    cases hpat : pat with
    | nil => exact absurd hpat hne
    | cons p pt =>
      have hpre : isPrefixOfCi (p :: pt) ((p :: pt) ++ b) = true := by
        unfold isPrefixOfCi
        rw [List.take_left]
        rw [show (p :: pt).map Char.toLower = p :: pt from hpat ▸ hlow]
        simp
      rw [show (p :: pt) ++ b = p :: (pt ++ b) from List.cons_append p pt b] at hpre ⊢
      rw [findSubCi_cons, if_pos hpre]
      rw [show p :: (pt ++ b) = (p :: pt) ++ b from (List.cons_append p pt b).symm]
      rw [List.drop_left]
  | cons c a' ih =>
    intro b h
    have hcond : isPrefixOfCi pat (c :: a') = false ∧ findSubCi pat a' = none := by
      rw [findSubCi_cons] at h
      by_cases hp : isPrefixOfCi pat (c :: a') = true
      · rw [if_pos hp] at h
        exact absurd h (by simp)
      · rw [if_neg hp] at h
        refine ⟨by simpa using hp, ?_⟩
        cases hfs : findSubCi pat a' with
        | none => rfl
        | some ab =>
          obtain ⟨a2, b2⟩ := ab
          rw [hfs] at h
          exact absurd h (by simp)
    obtain ⟨h1, h2⟩ := hcond
    rw [List.cons_append, findSubCi_cons]
    have hnp : isPrefixOfCi pat (c :: (a' ++ (pat ++ b))) = false := by
      by_cases hlen : pat.length ≤ (c :: a').length
      · have htake : (c :: (a' ++ (pat ++ b))).take pat.length =
            (c :: a').take pat.length := by
          rw [show c :: (a' ++ (pat ++ b)) = (c :: a') ++ (pat ++ b) from rfl]
          exact List.take_append_of_le_length hlen
        unfold isPrefixOfCi at h1 ⊢
        rw [htake]
        exact h1
      · push_neg at hlen
        rw [Bool.eq_false_iff]
        intro hcon
        unfold isPrefixOfCi at hcon
        rw [beq_iff_eq] at hcon
        have hsplit2 : (c :: (a' ++ (pat ++ b))).take pat.length =
            (c :: a') ++ pat.take (pat.length - (c :: a').length) := by
          rw [show c :: (a' ++ (pat ++ b)) = (c :: a') ++ (pat ++ b) from rfl]
          rw [List.take_append_eq_append_take]
          rw [List.take_of_length_le (le_of_lt hlen)]
          congr 1
          exact List.take_append_of_le_length (by omega)
        rw [hsplit2, List.map_append] at hcon
        have hmt : (pat.take (pat.length - (c :: a').length)).map Char.toLower =
            pat.take (pat.length - (c :: a').length) := by
          rw [List.map_take, hlow]
        rw [hmt] at hcon
        have hdrop := congrArg (List.drop ((c :: a').length)) hcon
        rw [show (c :: a').length = ((c :: a').map Char.toLower).length from
          (List.length_map _ _).symm, List.drop_left, List.length_map] at hdrop
        exact hbord ((c :: a').length) hlen (by simp) hdrop
    rw [if_neg (by simp [hnp])]
    rw [ih b h2]

theorem stripThinkAux_succ (f : Nat) (s : List Char) :
    stripThinkAux (f + 1) s =
      match findSubCi thinkOpenTok s with
      | none => s
      | some (a, b) =>
        match findSubCi thinkCloseTok b with
        | none => s
        | some (_, d) => a ++ stripThinkAux f d := rfl

theorem stripThinkAux_nil (f : Nat) : stripThinkAux f [] = [] := by
  cases f with
  | zero => rfl
  | succ g => rfl

theorem stripThinkAux_no_open (f : Nat) (s : List Char)
    (h : findSubCi thinkOpenTok s = none) : stripThinkAux f s = s := by
  cases f with
  | zero => rfl
  | succ g => rw [stripThinkAux_succ, h]

theorem stripThinkAux_fuel :
    ∀ (n : Nat) (s : List Char), s.length ≤ n →
    ∀ f1 f2, s.length ≤ f1 → s.length ≤ f2 →
    stripThinkAux f1 s = stripThinkAux f2 s := by
  intro n
  induction n with
  | zero =>
    intro s hs f1 f2 _ _
    have hnil : s = [] := List.length_eq_zero.1 (Nat.le_zero.1 hs)
    subst hnil
    rw [stripThinkAux_nil, stripThinkAux_nil]
  | succ m ih =>
    intro s hs f1 f2 hf1 hf2
    by_cases hs0 : s = []
    · subst hs0
      rw [stripThinkAux_nil, stripThinkAux_nil]
    · have hpos : 1 ≤ s.length := by
        cases s with
        | nil => exact absurd rfl hs0
        | cons c cs => simp
      obtain ⟨g1, rfl⟩ : ∃ g, f1 = g + 1 := ⟨f1 - 1, by omega⟩
      obtain ⟨g2, rfl⟩ : ∃ g, f2 = g + 1 := ⟨f2 - 1, by omega⟩
      rw [stripThinkAux_succ, stripThinkAux_succ]
      cases hfo : findSubCi thinkOpenTok s with
      | none => rfl
      | some ab =>
        obtain ⟨a, b⟩ := ab
        dsimp only
        cases hfc : findSubCi thinkCloseTok b with
        | none => rfl
        | some cd =>
          obtain ⟨cm, d⟩ := cd
          dsimp only
          have hlen1 := findSubCi_length (show thinkOpenTok ≠ [] by decide) hfo
          have hlen2 := findSubCi_length (show thinkCloseTok ≠ [] by decide) hfc
          simp only [show thinkOpenTok.length = 7 from rfl] at hlen1
          simp only [show thinkCloseTok.length = 8 from rfl] at hlen2
          congr 1
          exact ih d (by omega) g1 g2 (by omega) (by omega)

/-- B3: one `<think>...</think>` block is removed (the leftmost first,
deleting through the nearest close tag) and stripping continues after
it. -/
theorem stripThinkTags_removes_block (a m d : List Char)
    (ha : findSubCi thinkOpenTok a = none)
    (hm : findSubCi thinkCloseTok m = none) :
    stripThinkTags (a ++ thinkOpenTok ++ m ++ thinkCloseTok ++ d) =
      trimChars (a ++ stripThinkAux d.length d) := by
  have hassoc : a ++ thinkOpenTok ++ m ++ thinkCloseTok ++ d =
      a ++ (thinkOpenTok ++ (m ++ (thinkCloseTok ++ d))) := by
    simp [List.append_assoc]
  have hfo := findSubCi_append_self thinkOpenTok (by decide) (by decide)
    (by decide) a (m ++ (thinkCloseTok ++ d)) ha
  have hfc := findSubCi_append_self thinkCloseTok (by decide) (by decide)
    (by decide) m d hm
  unfold stripThinkTags
  rw [hassoc]
  have hlen : (a ++ (thinkOpenTok ++ (m ++ (thinkCloseTok ++ d)))).length =
      a.length + (7 + (m.length + (8 + d.length))) := by
    simp [thinkOpenTok, thinkCloseTok]
    omega
  obtain ⟨g, hg⟩ : ∃ g, (a ++ (thinkOpenTok ++ (m ++ (thinkCloseTok ++ d)))).length =
      g + 1 :=
    ⟨(a ++ (thinkOpenTok ++ (m ++ (thinkCloseTok ++ d)))).length - 1, by omega⟩
  rw [hg, stripThinkAux_succ, hfo]
  dsimp only
  rw [hfc]
  dsimp only
  have hfuel : stripThinkAux g d = stripThinkAux d.length d :=
    stripThinkAux_fuel d.length d le_rfl g d.length (by omega) le_rfl
  rw [hfuel]

/-! ## C9: lemmas about the trailing end-of-turn artifacts -/

theorem dropTrailingTurnToks_succ (f : Nat) (s : List Char) :
    dropTrailingTurnToks (f + 1) s =
      if isSuffixOfCi startTurnTok s then
        ((dropTrailingTurnToks f (s.take (s.length - startTurnTok.length))).1, true)
      else if isSuffixOfCi endTurnTok s then
        ((dropTrailingTurnToks f (s.take (s.length - endTurnTok.length))).1, true)
      else (s, false) := rfl

theorem isSuffixOfCi_append_self (t x : List Char)
    (hlow : t.map Char.toLower = t) : isSuffixOfCi t (x ++ t) = true := by
  unfold isSuffixOfCi isPrefixOfCi
  rw [List.reverse_append, List.take_left]
  rw [show t.reverse.map Char.toLower = t.reverse from by
    simp [List.map_reverse, hlow]]
  simp

theorem not_suffix_start_of_append_end (x : List Char) :
    isSuffixOfCi startTurnTok (x ++ endTurnTok) = false := by
  unfold isSuffixOfCi isPrefixOfCi
  rw [List.reverse_append]
  rw [Bool.eq_false_iff]
  intro heq
  rw [beq_iff_eq] at heq
  have h14 := congrArg (List.take 14) heq
  rw [← List.map_take, List.take_take] at h14
  have hmin : min 14 startTurnTok.reverse.length = 14 := by decide
  rw [hmin] at h14
  rw [List.take_append_of_le_length (by decide : 14 ≤ endTurnTok.reverse.length)] at h14
  rw [List.take_of_length_le (by decide : endTurnTok.reverse.length ≤ 14)] at h14
  exact absurd h14 (by decide)

theorem endsWithTurnTok_false (s : List Char) (h : endsWithTurnTok s = false) :
    isSuffixOfCi startTurnTok s = false ∧ isSuffixOfCi endTurnTok s = false := by
  unfold endsWithTurnTok at h
  exact ⟨by_contra fun hc => by simp [Bool.not_eq_false] at hc; simp [hc] at h,
    by_contra fun hc => by simp [Bool.not_eq_false] at hc; simp [hc] at h⟩

theorem dropTrailingTurnToks_no_tok (f : Nat) (s : List Char)
    (h : endsWithTurnTok s = false) : dropTrailingTurnToks f s = (s, false) := by
  obtain ⟨h1, h2⟩ := endsWithTurnTok_false s h
  cases f with
  | zero => rfl
  | succ g =>
    rw [dropTrailingTurnToks_succ, if_neg (by simp [h1]), if_neg (by simp [h2])]

theorem trimRight_append_ws (x ws : List Char)
    (hws : ∀ c ∈ ws, isJsWs c = true) : trimRight (x ++ ws) = trimRight x := by
  unfold trimRight
  rw [List.reverse_append]
  rw [dropWhile_append_all isJsWs ws.reverse x.reverse
    (fun c hc => hws c (List.mem_reverse.1 hc))]

theorem dropTrailingTurnToks_removes (s : List Char)
    (hend : endsWithTurnTok s = false) :
    ∀ (ts : List (List Char)) (fuel : Nat), ts ≠ [] →
    (∀ t ∈ ts, t = startTurnTok ∨ t = endTurnTok) →
    (s ++ ts.flatten).length ≤ fuel →
    dropTrailingTurnToks fuel (s ++ ts.flatten) = (s, true) := by
  intro ts
  induction ts using List.reverseRecOn with
  | nil => intro fuel h; exact absurd rfl h
  | append_singleton ts' t ih =>
    intro fuel _ htok hfuel
    have hfl : (ts' ++ [t]).flatten = ts'.flatten ++ t := by
      simp
    rw [hfl, ← List.append_assoc] at hfuel ⊢
    have ht := htok t (by simp)
    have htlen : 14 ≤ t.length := by
      rcases ht with h | h <;> rw [h] <;> decide
    have hxt : ((s ++ ts'.flatten) ++ t).length =
        (s ++ ts'.flatten).length + t.length := List.length_append _ _
    obtain ⟨f, rfl⟩ : ∃ f, fuel = f + 1 := ⟨fuel - 1, by omega⟩
    have hinner : (dropTrailingTurnToks f (s ++ ts'.flatten)).1 = s := by
      by_cases hts' : ts' = []
      · subst hts'
        simp only [List.flatten_nil, List.append_nil]
        rw [dropTrailingTurnToks_no_tok f s hend]
      · rw [ih f hts' (fun u hu => htok u (by simp [hu])) (by omega)]
    have htake1 : ((s ++ ts'.flatten) ++ startTurnTok).take
        (((s ++ ts'.flatten) ++ startTurnTok).length - startTurnTok.length) =
        s ++ ts'.flatten := by
      rw [List.length_append]
      rw [show (s ++ ts'.flatten).length + startTurnTok.length - startTurnTok.length =
        (s ++ ts'.flatten).length from by omega]
      exact List.take_left _ _
    have htake2 : ((s ++ ts'.flatten) ++ endTurnTok).take
        (((s ++ ts'.flatten) ++ endTurnTok).length - endTurnTok.length) =
        s ++ ts'.flatten := by
      rw [List.length_append]
      rw [show (s ++ ts'.flatten).length + endTurnTok.length - endTurnTok.length =
        (s ++ ts'.flatten).length from by omega]
      exact List.take_left _ _
    rcases ht with ht | ht
    · subst ht
      have hpos : isSuffixOfCi startTurnTok (s ++ ts'.flatten ++ startTurnTok) = true :=
        isSuffixOfCi_append_self startTurnTok (s ++ ts'.flatten) (by decide)
      rw [dropTrailingTurnToks_succ, if_pos hpos, htake1, hinner]
    · subst ht
      have hneg : isSuffixOfCi startTurnTok (s ++ ts'.flatten ++ endTurnTok) = false :=
        not_suffix_start_of_append_end (s ++ ts'.flatten)
      have hpos : isSuffixOfCi endTurnTok (s ++ ts'.flatten ++ endTurnTok) = true :=
        isSuffixOfCi_append_self endTurnTok (s ++ ts'.flatten) (by decide)
      rw [dropTrailingTurnToks_succ,
        if_neg (fun hcon => by rw [hcon] at hneg; exact Bool.noConfusion hneg),
        if_pos hpos, htake2, hinner]

/-- B4: a trailing run of adjacent end-of-turn artifacts, together
with any trailing whitespace, is removed, and the rest is trimmed. -/
theorem stripTrailing_removes (s ws : List Char) (ts : List (List Char))
    (htsne : ts ≠ [])
    (htok : ∀ t ∈ ts, t = startTurnTok ∨ t = endTurnTok)
    (hws : ∀ c ∈ ws, isJsWs c = true)
    (hend : endsWithTurnTok s = false) :
    stripTrailingLlmArtifacts (s ++ ts.flatten ++ ws) = trimChars s := by
  have hlast : trimRight (s ++ ts.flatten ++ ws) = s ++ ts.flatten := by
    rw [trimRight_append_ws (s ++ ts.flatten) ws hws]
    refine trimRight_eq_self _ ?_
    intro c hc
    obtain ⟨ts', t, rfl⟩ := (List.eq_nil_or_concat ts).resolve_left htsne
    have hfl : (ts'.concat t).flatten = ts'.flatten ++ t := by simp
    rcases htok t (by simp) with ht | ht <;> subst ht
    · rw [hfl, ← List.append_assoc,
        show startTurnTok = "</start_of_turn".toList ++ ['>'] from by decide,
        ← List.append_assoc, List.getLast?_concat] at hc
      simp only [Option.some.injEq] at hc
      subst hc
      decide
    · rw [hfl, ← List.append_assoc,
        show endTurnTok = "</end_of_turn".toList ++ ['>'] from by decide,
        ← List.append_assoc, List.getLast?_concat] at hc
      simp only [Option.some.injEq] at hc
      subst hc
      decide
  unfold stripTrailingLlmArtifacts
  dsimp only
  rw [hlast]
  rw [dropTrailingTurnToks_removes s hend ts (s ++ ts.flatten).length htsne htok le_rfl]
  rfl

/-- B5: artifact-free text passes the whole stripping pipeline
unchanged up to trimming. -/
theorem strip_passthrough (s : List Char)
    (h1 : fenceWrapped (trimChars s) = false)
    (h2 : findSubCi thinkOpenTok s = none)
    (h3 : endsWithTurnTok (trimChars s) = false) :
    stripAssistantText s = trimChars s := by
  unfold stripAssistantText
  have hc : stripCodeBlockTags s = s := by
    unfold stripCodeBlockTags
    rw [if_neg (by simp [h1])]
  rw [hc]
  have ht : stripThinkTags s = trimChars s := by
    unfold stripThinkTags
    rw [stripThinkAux_no_open _ _ h2]
  rw [ht]
  unfold stripTrailingLlmArtifacts
  dsimp only
  have htr : trimRight (trimChars s) = trimChars s := by
    unfold trimChars
    exact trimRight_trimRight _
  rw [htr, dropTrailingTurnToks_no_tok _ _ h3]
  exact trimChars_trimChars s

/-- C9: the assistant-text stripping removes every
`<think>...</think>` block (left to right, deleting through the
nearest close tag), removes the trailing run of `</start_of_turn>` /
`</end_of_turn>` tokens, removes the opening and closing fence lines
when and only when the whole trimmed text is wrapped in a markdown
code fence, and passes artifact-free text through unchanged up to
whitespace trimming. -/
theorem strip_artifacts_spec :
    (∀ s : List Char, fenceWrapped (trimChars s) = false →
      stripCodeBlockTags s = s) ∧
    (∀ lang body : List Char, (∀ c ∈ lang, isWordChar c = true) →
      stripCodeBlockTags
        ('`' :: '`' :: '`' :: lang ++ '\n' :: (body ++ '\n' :: ['`', '`', '`'])) =
        body) ∧
    (∀ a m d : List Char, findSubCi thinkOpenTok a = none →
      findSubCi thinkCloseTok m = none →
      stripThinkTags (a ++ thinkOpenTok ++ m ++ thinkCloseTok ++ d) =
        trimChars (a ++ stripThinkAux d.length d)) ∧
    (∀ (s ws : List Char) (ts : List (List Char)), ts ≠ [] →
      (∀ t ∈ ts, t = startTurnTok ∨ t = endTurnTok) →
      (∀ c ∈ ws, isJsWs c = true) → endsWithTurnTok s = false →
      stripTrailingLlmArtifacts (s ++ ts.flatten ++ ws) = trimChars s) ∧
    (∀ s : List Char, fenceWrapped (trimChars s) = false →
      findSubCi thinkOpenTok s = none → endsWithTurnTok (trimChars s) = false →
      stripAssistantText s = trimChars s) := by
  refine ⟨?_, stripCodeBlockTags_wrapped, stripThinkTags_removes_block,
    stripTrailing_removes, strip_passthrough⟩
  intro s h
  unfold stripCodeBlockTags
  rw [if_neg (by simp [h])]

/-- C9 witness: the stripping pipeline at concrete inputs — a wrapped
code fence, a think block, a trailing end-of-turn token with
whitespace, and a plain text. -/
theorem strip_artifacts_spec_check :
    stripCodeBlockTags
      ('`' :: '`' :: '`' :: "js".toList ++ '\n' :: ("x = 1".toList ++ '\n' :: ['`', '`', '`'])) =
      "x = 1".toList ∧
    stripThinkTags ("A ".toList ++ thinkOpenTok ++ "hidden".toList ++ thinkCloseTok ++ " B".toList) =
      trimChars ("A ".toList ++ stripThinkAux 2 " B".toList) ∧
    stripTrailingLlmArtifacts ("hi".toList ++ [endTurnTok].flatten ++ " ".toList) =
      "hi".toList ∧
    stripAssistantText " hello ".toList = "hello".toList := by
  refine ⟨strip_artifacts_spec.2.1 "js".toList "x = 1".toList (by decide), ?_, ?_, ?_⟩
  · have h := strip_artifacts_spec.2.2.1 "A ".toList "hidden".toList " B".toList
      (by decide) (by decide)
    simpa using h
  · have h := strip_artifacts_spec.2.2.2.1 "hi".toList " ".toList [endTurnTok]
      (by simp) (by decide) (by decide) (by decide)
    rw [h]
    decide
  · have h := strip_artifacts_spec.2.2.2.2 " hello ".toList (by decide) (by decide)
      (by decide)
    rw [h]
    decide

end AniSpec
